import Mathlib

/-!
# Verification of the fractal triangular-pyramid generator

Shallow embedding of `src/3d_model_files/3d_fractal_triangular_pyramid.py`.

The script builds a regular tetrahedron (`create_tetra`), and recursively
places scaled copies on the faces of each placed tetrahedron
(`fractal_tetra_simple`), composing 4x4 homogeneous transforms
(`mathutils.Matrix`) along the way.  Floating-point values are modelled as
exact real numbers; `mathutils.Vector` is modelled by `Vec3`,
`mathutils.Matrix` (4x4) by `Mat4 = Matrix (Fin 4) (Fin 4) ℝ`, Blender
meshes by the `Primitive` vertex/face lists the script feeds to `bmesh`,
and the `all_meshes` accumulator list by a `List PlacementRec`.
-/

namespace FractalPyramid

noncomputable section

/-- A 3D vector with real components, modelling `mathutils.Vector`. -/
@[ext]
structure Vec3 where
  x : ℝ
  y : ℝ
  z : ℝ

namespace Vec3

/-- Componentwise vector addition. -/
def add (a b : Vec3) : Vec3 := ⟨a.x + b.x, a.y + b.y, a.z + b.z⟩

/-- Componentwise vector subtraction. -/
def sub (a b : Vec3) : Vec3 := ⟨a.x - b.x, a.y - b.y, a.z - b.z⟩

/-- Componentwise negation, modelling `-v`. -/
def neg (a : Vec3) : Vec3 := ⟨-a.x, -a.y, -a.z⟩

/-- Division of a vector by a scalar, modelling `v / c`. -/
def div (a : Vec3) (c : ℝ) : Vec3 := ⟨a.x / c, a.y / c, a.z / c⟩

/-- Dot product, modelling `Vector.dot`. -/
def dot (a b : Vec3) : ℝ := a.x * b.x + a.y * b.y + a.z * b.z

/-- Cross product, modelling `Vector.cross`. -/
def cross (a b : Vec3) : Vec3 :=
  ⟨a.y * b.z - a.z * b.y, a.z * b.x - a.x * b.z, a.x * b.y - a.y * b.x⟩

/-- Euclidean length, modelling `Vector.length`. -/
def length (a : Vec3) : ℝ := Real.sqrt (dot a a)

/-- Normalisation, modelling `Vector.normalized` / `Vector.normalize`
(for the zero vector both yield the zero vector: division by zero is zero). -/
def normalized (a : Vec3) : Vec3 := ⟨a.x / a.length, a.y / a.length, a.z / a.length⟩

end Vec3

/-- 4x4 real matrix, modelling a `mathutils.Matrix` of size 4. -/
abbrev Mat4 := Matrix (Fin 4) (Fin 4) ℝ

/-- Homogeneous coordinates of a point, as acted on by a `Mat4`
(column-vector convention, as Blender applies `matrix_world`). -/
def hvec (v : Vec3) : Fin 4 → ℝ := ![v.x, v.y, v.z, 1]

/-- Homogeneous translation matrix, modelling `Matrix.Translation(t)`. -/
def translationM (t : Vec3) : Mat4 :=
  !![1, 0, 0, t.x;
     0, 1, 0, t.y;
     0, 0, 1, t.z;
     0, 0, 0, 1]

/-- Axis-angle rotation as a 4x4 homogeneous matrix, modelling
`mathutils.Matrix.Rotation(angle, 4, axis)` (Rodrigues form; Blender
normalises the axis internally, and the script additionally passes only
axes it has already normalised). -/
def rotationM (angle : ℝ) (axis : Vec3) : Mat4 :=
  let a := axis.normalized
  let c := Real.cos angle
  let s := Real.sin angle
  !![c + a.x * a.x * (1 - c), a.x * a.y * (1 - c) - a.z * s, a.x * a.z * (1 - c) + a.y * s, 0;
     a.y * a.x * (1 - c) + a.z * s, c + a.y * a.y * (1 - c), a.y * a.z * (1 - c) - a.x * s, 0;
     a.z * a.x * (1 - c) - a.y * s, a.z * a.y * (1 - c) + a.x * s, c + a.z * a.z * (1 - c), 0;
     0, 0, 0, 1]

/-- `get_rotation_matrix_to_align(from_vec, to_vec)` from the script:
the shortest-arc rotation taking `from_vec` to `to_vec`, with special
cases for (anti)parallel directions. -/
def get_rotation_matrix_to_align (from_vec to_vec : Vec3) : Mat4 :=
  let f := from_vec.normalized
  let t := to_vec.normalized
  let axis := f.cross t
  if axis.length < 0.0001 then
    if 0 < f.dot t then
      1
    else
      let perp : Vec3 := if |f.x| < 0.9 then ⟨1, 0, 0⟩ else ⟨0, 1, 0⟩
      rotationM Real.pi (f.cross perp).normalized
  else
    rotationM (Real.arccos (max (-1) (min 1 (f.dot t)))) axis.normalized

-- Module-level parameters (lines 6-10 of the script).

/-- `size = 30`. -/
def size : ℝ := 30

/-- `nozzle_width = 0.4`. -/
def nozzle_width : ℝ := 0.4

/-- `scale_factor = 0.5`. -/
def scale_factor : ℝ := 0.5

/-- `recursion_depth = 4`. -/
def recursion_depth : ℕ := 4

/-- The vertex/face data the script hands to `bmesh` for a tetrahedron. -/
structure Primitive where
  points : List Vec3
  faces : List (List ℕ)

/-- Vertex `v0 = (0, 0, 0)` of the canonical tetrahedron. -/
def v0 (_s : ℝ) : Vec3 := ⟨0, 0, 0⟩

/-- Vertex `v1 = (s, 0, 0)`. -/
def v1 (s : ℝ) : Vec3 := ⟨s, 0, 0⟩

/-- Vertex `v2 = (s/2, (sqrt 3 / 2) * s, 0)`. -/
def v2 (s : ℝ) : Vec3 := ⟨s / 2, Real.sqrt 3 / 2 * s, 0⟩

/-- Vertex `v3 = (s/2, (sqrt 3 / 6) * s, (sqrt 6 / 3) * s)`. -/
def v3 (s : ℝ) : Vec3 := ⟨s / 2, Real.sqrt 3 / 6 * s, Real.sqrt 6 / 3 * s⟩

/-- `create_tetra(s)`: the vertex list and face index list of the
canonical tetrahedron at edge length `s` (lines 12-42). -/
def create_tetra (s : ℝ) : Primitive :=
  { points := [v0 s, v1 s, v2 s, v3 s]
    faces := [[0, 1, 2], [0, 1, 3], [1, 2, 3], [2, 0, 3]] }

/-- The vertex triples of the four faces, in the fixed order
base, front, right, left used by the recursion loop (lines 87-92). -/
def face_verts (s : ℝ) : Fin 4 → Vec3 × Vec3 × Vec3 :=
  ![(v0 s, v1 s, v2 s), (v0 s, v1 s, v3 s), (v1 s, v2 s, v3 s), (v2 s, v0 s, v3 s)]

/-- The face normal used by the recursion loop: the base face carries the
fixed vector `(0, 0, 1)` from the faces table; each side face gets the
normalised cross product of its two edge vectors, then negated
("flip normal", lines 104-110). -/
def face_normal (s : ℝ) (i : Fin 4) : Vec3 :=
  if i = 0 then ⟨0, 0, 1⟩
  else
    let fv := face_verts s i
    Vec3.neg (Vec3.normalized (Vec3.cross (Vec3.sub fv.2.1 fv.1) (Vec3.sub fv.2.2 fv.1)))

/-- Face centroid: mean of the face's three vertices (line 102). -/
def face_centroid (s : ℝ) (i : Fin 4) : Vec3 :=
  let fv := face_verts s i
  Vec3.div (Vec3.add (Vec3.add fv.1 fv.2.1) fv.2.2) 3

/-- The base centroid of a freshly-built child tetrahedron of edge length
`next_size`, as the script computes it analytically (line 126). -/
def base_centroid (next_size : ℝ) : Vec3 :=
  ⟨next_size / 2, Real.sqrt 3 / 6 * next_size, 0⟩

/-- `base_normal = Vector([0, 0, -1])` (line 120). -/
def base_normal : Vec3 := ⟨0, 0, -1⟩

/-- The transform composed for the child spawned on face `i`
(lines 112-127): parent matrix, then translation to the face centroid,
then the alignment rotation, then translation by the negated child base
centroid. -/
def child_matrix (s : ℝ) (parent_matrix : Mat4) (i : Fin 4) : Mat4 :=
  parent_matrix
    * translationM (face_centroid s i)
    * get_rotation_matrix_to_align base_normal (face_normal s i)
    * translationM (Vec3.neg (base_centroid (s * scale_factor)))

/-- One entry of the `all_meshes` accumulator:
`(mesh, parent_matrix.copy(), depth)` (line 76). -/
structure PlacementRec where
  mesh : Primitive
  mat : Mat4
  depth : ℕ

/-- `fractal_tetra_simple(s, depth, parent_matrix, all_meshes, skip_base)`
(lines 66-131).  `depth` is a natural number (the script only ever calls it
with non-negative depths); the guard `s >= nozzle_width and depth > 0`
becomes the `0` pattern (where `depth > 0` fails) plus the size test.
The four face iterations thread the accumulator in order; face 0 (the
base) is skipped when `skip_base` holds. -/
def fractal_tetra_simple (s : ℝ) (depth : ℕ) (parent_matrix : Mat4)
    (all_meshes : List PlacementRec) (skip_base : Bool) : List PlacementRec :=
  match depth with
  | 0 => all_meshes
  | d + 1 =>
    if nozzle_width ≤ s then
      let next_size := s * scale_factor
      let a1 := all_meshes ++ [⟨create_tetra s, parent_matrix, d + 1⟩]
      let a2 := if skip_base then a1
        else fractal_tetra_simple next_size d (child_matrix s parent_matrix 0) a1 true
      let a3 := fractal_tetra_simple next_size d (child_matrix s parent_matrix 1) a2 true
      let a4 := fractal_tetra_simple next_size d (child_matrix s parent_matrix 2) a3 true
      fractal_tetra_simple next_size d (child_matrix s parent_matrix 3) a4 true
    else all_meshes

/-- The records produced by a call when started from an empty accumulator. -/
def emitted (s : ℝ) (depth : ℕ) (parent_matrix : Mat4) (skip_base : Bool) :
    List PlacementRec :=
  fractal_tetra_simple s depth parent_matrix [] skip_base

/-- The program's top-level call (line 143):
`all_meshes = fractal_tetra_simple(size, recursion_depth, skip_base=True)`
with the default identity parent matrix and fresh accumulator. -/
def all_meshes_result : List PlacementRec :=
  fractal_tetra_simple size recursion_depth 1 [] true

/-- Modelled from the spec (testable property of section 8; the script has
no explicit solid-centroid computation): the centroid of the whole
tetrahedron, the mean of its four vertices. -/
def spec_solid_centroid (s : ℝ) : Vec3 :=
  Vec3.div (Vec3.add (Vec3.add (Vec3.add (v0 s) (v1 s)) (v2 s)) (v3 s)) 4

/-- Record-count recurrence for a call with `skip_base` set: one record
for the call itself plus three children per level. -/
def cnt3 : ℕ → ℕ
  | 0 => 0
  | d + 1 => 1 + 3 * cnt3 d

/-- Record-count bound for a call that may spawn on all four faces
(every child call has `skip_base` set, so children are bounded by `cnt3`). -/
def cnt4 : ℕ → ℕ
  | 0 => 0
  | d + 1 => 1 + 4 * cnt3 d

/-! ## Basic vector lemmas -/

lemma dot_self_nonneg (v : Vec3) : 0 ≤ v.dot v := by
  simp only [Vec3.dot]
  nlinarith [mul_self_nonneg v.x, mul_self_nonneg v.y, mul_self_nonneg v.z]

lemma dot_self_pos {v : Vec3} (h : v ≠ ⟨0, 0, 0⟩) : 0 < v.dot v := by
  rcases (dot_self_nonneg v).lt_or_eq with h1 | h1
  · exact h1
  · exfalso
    apply h
    obtain ⟨x, y, z⟩ := v
    simp only [Vec3.dot] at h1
    have hx : x = 0 := mul_self_eq_zero.mp (by nlinarith [mul_self_nonneg y, mul_self_nonneg z])
    have hy : y = 0 := mul_self_eq_zero.mp (by nlinarith [mul_self_nonneg x, mul_self_nonneg z])
    have hz : z = 0 := mul_self_eq_zero.mp (by nlinarith [mul_self_nonneg x, mul_self_nonneg y])
    subst hx; subst hy; subst hz; rfl

lemma length_pos {v : Vec3} (h : 0 < v.dot v) : 0 < v.length :=
  Real.sqrt_pos.mpr h

lemma dot_normalized_self {v : Vec3} (h : 0 < v.dot v) :
    v.normalized.dot v.normalized = 1 := by
  have hL : v.length * v.length = v.dot v := Real.mul_self_sqrt (le_of_lt h)
  have hL0 : v.length ≠ 0 := ne_of_gt (length_pos h)
  simp only [Vec3.normalized, Vec3.dot] at *
  field_simp
  linarith [hL]

lemma normalized_of_unit {a : Vec3} (h : a.dot a = 1) : a.normalized = a := by
  ext <;> simp [Vec3.normalized, Vec3.length, h]

lemma len_eq {w : Vec3} {t : ℝ} (ht : 0 ≤ t) (h : w.dot w = t ^ 2) : w.length = t := by
  rw [Vec3.length, h, Real.sqrt_sq ht]

/-! ## Matrix-action lemmas -/

lemma translationM_mulVec_e4 (t : Vec3) :
    (translationM t).mulVec ![0, 0, 0, 1] = hvec t := by
  funext i
  fin_cases i <;>
    simp [translationM, hvec, Matrix.mulVec, Matrix.dotProduct, Fin.sum_univ_four]

lemma translationM_neg_mulVec (b : Vec3) :
    (translationM (Vec3.neg b)).mulVec (hvec b) = ![0, 0, 0, 1] := by
  funext i
  fin_cases i <;>
    simp [translationM, hvec, Vec3.neg, Matrix.mulVec, Matrix.dotProduct,
      Fin.sum_univ_four]

lemma rotationM_mulVec_e4 (angle : ℝ) (axis : Vec3) :
    (rotationM angle axis).mulVec ![0, 0, 0, 1] = ![0, 0, 0, 1] := by
  funext i
  fin_cases i <;>
    simp [rotationM, Matrix.mulVec, Matrix.dotProduct, Fin.sum_univ_four]

lemma align_mulVec_e4 (f t : Vec3) :
    (get_rotation_matrix_to_align f t).mulVec ![0, 0, 0, 1] = ![0, 0, 0, 1] := by
  unfold get_rotation_matrix_to_align
  dsimp only
  split_ifs <;> first | rw [Matrix.one_mulVec] | apply rotationM_mulVec_e4

/-! ## Recursion-unfolding lemmas -/

lemma fractal_zero (s : ℝ) (t : Mat4) (acc : List PlacementRec) (sb : Bool) :
    fractal_tetra_simple s 0 t acc sb = acc := rfl

lemma fractal_succ (s : ℝ) (d : ℕ) (t : Mat4) (acc : List PlacementRec) (sb : Bool) :
    fractal_tetra_simple s (d + 1) t acc sb =
      if nozzle_width ≤ s then
        fractal_tetra_simple (s * scale_factor) d (child_matrix s t 3)
          (fractal_tetra_simple (s * scale_factor) d (child_matrix s t 2)
            (fractal_tetra_simple (s * scale_factor) d (child_matrix s t 1)
              (if sb then acc ++ [⟨create_tetra s, t, d + 1⟩]
               else fractal_tetra_simple (s * scale_factor) d (child_matrix s t 0)
                 (acc ++ [⟨create_tetra s, t, d + 1⟩]) true) true) true) true
      else acc := rfl

lemma fractal_not_guard {s : ℝ} {d : ℕ} (t : Mat4) (acc : List PlacementRec) (sb : Bool)
    (h : ¬(nozzle_width ≤ s ∧ 0 < d)) :
    fractal_tetra_simple s d t acc sb = acc := by
  cases d with
  | zero => rfl
  | succ d =>
    have hs : ¬ nozzle_width ≤ s := fun hs => h ⟨hs, Nat.succ_pos d⟩
    rw [fractal_succ, if_neg hs]

lemma acc_shift : ∀ (d : ℕ) (s : ℝ) (t : Mat4) (acc : List PlacementRec) (sb : Bool),
    fractal_tetra_simple s d t acc sb = acc ++ emitted s d t sb := by
  intro d
  induction d with
  | zero => intro s t acc sb; simp [fractal_zero, emitted]
  | succ d ih =>
    intro s t acc sb
    by_cases h : nozzle_width ≤ s
    · rw [emitted, fractal_succ, fractal_succ, if_pos h, if_pos h]
      cases sb <;> simp [ih, List.append_assoc]
    · have hng : ¬(nozzle_width ≤ s ∧ 0 < d + 1) := fun hc => h hc.1
      rw [fractal_not_guard _ _ _ hng, emitted, fractal_not_guard _ _ _ hng]
      simp

lemma emitted_succ {s : ℝ} (h : nozzle_width ≤ s) (d : ℕ) (t : Mat4) (sb : Bool) :
    emitted s (d + 1) t sb =
      (⟨create_tetra s, t, d + 1⟩ ::
        (if sb then [] else emitted (s * scale_factor) d (child_matrix s t 0) true))
      ++ emitted (s * scale_factor) d (child_matrix s t 1) true
      ++ emitted (s * scale_factor) d (child_matrix s t 2) true
      ++ emitted (s * scale_factor) d (child_matrix s t 3) true := by
  rw [emitted, fractal_succ, if_pos h]
  cases sb <;> simp [acc_shift, List.append_assoc]

/-! ## Counting lemmas -/

lemma len_true_le : ∀ (d : ℕ) (s : ℝ) (t : Mat4),
    (emitted s d t true).length ≤ cnt3 d := by
  intro d
  induction d with
  | zero => intro s t; simp [emitted, fractal_zero, cnt3]
  | succ d ih =>
    intro s t
    by_cases h : nozzle_width ≤ s
    · rw [emitted_succ h]
      have h1 := ih (s * scale_factor) (child_matrix s t 1)
      have h2 := ih (s * scale_factor) (child_matrix s t 2)
      have h3 := ih (s * scale_factor) (child_matrix s t 3)
      simp only [cnt3, List.length_append, List.length_cons, if_true, List.length_nil]
      omega
    · have hng : ¬(nozzle_width ≤ s ∧ 0 < d + 1) := fun hc => h hc.1
      rw [emitted, fractal_not_guard _ _ _ hng]
      simp

lemma cnt3_le_cnt4 : ∀ d, cnt3 d ≤ cnt4 d := by
  intro d
  cases d with
  | zero => simp [cnt3, cnt4]
  | succ d => simp only [cnt3, cnt4]; omega

lemma len_le (d : ℕ) (s : ℝ) (t : Mat4) (sb : Bool) :
    (emitted s d t sb).length ≤ cnt4 d := by
  cases d with
  | zero => simp [emitted, fractal_zero, cnt4]
  | succ d =>
    by_cases h : nozzle_width ≤ s
    · rw [emitted_succ h]
      have h0 := len_true_le d (s * scale_factor) (child_matrix s t 0)
      have h1 := len_true_le d (s * scale_factor) (child_matrix s t 1)
      have h2 := len_true_le d (s * scale_factor) (child_matrix s t 2)
      have h3 := len_true_le d (s * scale_factor) (child_matrix s t 3)
      cases sb <;>
        simp only [cnt4, List.length_append, List.length_cons, List.length_nil,
          if_true, if_false, Bool.false_eq_true] <;>
        omega
    · have hng : ¬(nozzle_width ≤ s ∧ 0 < d + 1) := fun hc => h hc.1
      rw [emitted, fractal_not_guard _ _ _ hng]
      simp

lemma len_exact : ∀ (d : ℕ) (s : ℝ) (t : Mat4),
    (∀ k, k < d → nozzle_width ≤ s * scale_factor ^ k) →
    (emitted s d t true).length = cnt3 d := by
  intro d
  induction d with
  | zero => intro s t _; simp [emitted, fractal_zero, cnt3]
  | succ d ih =>
    intro s t H
    have h0 : nozzle_width ≤ s := by
      have := H 0 (Nat.succ_pos d)
      simpa using this
    have Hc : ∀ k, k < d → nozzle_width ≤ s * scale_factor * scale_factor ^ k := by
      intro k hk
      have := H (k + 1) (by omega)
      calc nozzle_width ≤ s * scale_factor ^ (k + 1) := this
        _ = s * scale_factor * scale_factor ^ k := by ring
    rw [emitted_succ h0]
    have h1 := ih (s * scale_factor) (child_matrix s t 1) Hc
    have h2 := ih (s * scale_factor) (child_matrix s t 2) Hc
    have h3 := ih (s * scale_factor) (child_matrix s t 3) Hc
    simp only [cnt3, List.length_append, List.length_cons, if_true, List.length_nil]
    omega

/-! ## The per-record invariant: depth bounds and size law -/

lemma emitted_mem : ∀ (d : ℕ) (s : ℝ) (t : Mat4) (sb : Bool) (r : PlacementRec),
    r ∈ emitted s d t sb →
    r.mesh = create_tetra (s * scale_factor ^ (d - r.depth)) ∧
      1 ≤ r.depth ∧ r.depth ≤ d := by
  intro d
  induction d with
  | zero => intro s t sb r hr; simp [emitted, fractal_zero] at hr
  | succ d ih =>
    intro s t sb r hr
    by_cases h : nozzle_width ≤ s
    · rw [emitted_succ h] at hr
      simp only [List.mem_append, List.mem_cons] at hr
      have child : ∀ i : Fin 4,
          r ∈ emitted (s * scale_factor) d (child_matrix s t i) true →
          r.mesh = create_tetra (s * scale_factor ^ (d + 1 - r.depth)) ∧
            1 ≤ r.depth ∧ r.depth ≤ d + 1 := by
        intro i hri
        obtain ⟨hm, hlo, hhi⟩ := ih (s * scale_factor) (child_matrix s t i) true r hri
        refine ⟨?_, hlo, le_trans hhi (Nat.le_succ d)⟩
        rw [hm]
        have hd : d + 1 - r.depth = (d - r.depth) + 1 := by omega
        rw [hd, pow_succ]
        ring_nf
      rcases hr with ((((hr | hr) | hr) | hr) | hr)
      · subst hr
        refine ⟨?_, by simp, le_refl _⟩
        simp
      · rcases sb with _ | _
        · exact child 0 (by simpa using hr)
        · simp at hr
      · exact child 1 hr
      · exact child 2 hr
      · exact child 3 hr
    · have hng : ¬(nozzle_width ≤ s ∧ 0 < d + 1) := fun hc => h hc.1
      rw [emitted, fractal_not_guard _ _ _ hng] at hr
      simp at hr

/-! ## Face-normal geometry -/

lemma dot_neg_normalized_neg {c w : Vec3} (hc : 0 < c.dot c) (hw : 0 < c.dot w) :
    (Vec3.neg c.normalized).dot w < 0 := by
  have hL : 0 < c.length := length_pos hc
  simp only [Vec3.neg, Vec3.normalized, Vec3.dot] at hw ⊢
  have key : -(c.x / c.length) * w.x + -(c.y / c.length) * w.y + -(c.z / c.length) * w.z
      = -((c.x * w.x + c.y * w.y + c.z * w.z) / c.length) := by ring
  rw [key]
  have hq : 0 < (c.x * w.x + c.y * w.y + c.z * w.z) / c.length := div_pos hw hL
  linarith

/-- The normals the loop computes (the flipped cross products, and the
fixed base vector `(0,0,1)`) all point toward the interior of the solid:
their dot product with (face centroid - solid centroid) is negative. -/
lemma face_normal_inward (s : ℝ) (hs : 0 < s) (i : Fin 4) :
    (face_normal s i).dot
      (Vec3.sub (face_centroid s i) (spec_solid_centroid s)) < 0 := by
  have h3 : Real.sqrt 3 ^ 2 = 3 := Real.sq_sqrt (by norm_num)
  have h6 : Real.sqrt 6 ^ 2 = 6 := Real.sq_sqrt (by norm_num)
  have h3p : 0 < Real.sqrt 3 := Real.sqrt_pos.mpr (by norm_num)
  have h6p : 0 < Real.sqrt 6 := Real.sqrt_pos.mpr (by norm_num)
  fin_cases i
  · -- base face: fixed normal (0,0,1), centroid difference points down
    show (Vec3.dot ⟨0, 0, 1⟩ (Vec3.sub (face_centroid s 0) (spec_solid_centroid s))) < 0
    have fc : face_centroid s 0 = Vec3.div (Vec3.add (Vec3.add (v0 s) (v1 s)) (v2 s)) 3 := rfl
    rw [fc]
    simp only [spec_solid_centroid, v0, v1, v2, v3, Vec3.sub, Vec3.add, Vec3.div, Vec3.dot]
    nlinarith [mul_pos h6p hs]
  · -- front face (v0, v1, v3)
    show (Vec3.neg (Vec3.normalized (Vec3.cross
          (Vec3.sub (v1 s) (v0 s)) (Vec3.sub (v3 s) (v0 s))))).dot
        (Vec3.sub (face_centroid s 1) (spec_solid_centroid s)) < 0
    apply dot_neg_normalized_neg
    · have hv : (Vec3.cross (Vec3.sub (v1 s) (v0 s)) (Vec3.sub (v3 s) (v0 s))).dot
          (Vec3.cross (Vec3.sub (v1 s) (v0 s)) (Vec3.sub (v3 s) (v0 s))) = 3 / 4 * s ^ 4 := by
        simp only [v0, v1, v3, Vec3.sub, Vec3.cross, Vec3.dot]
        linear_combination (s ^ 4 / 36) * h3 + (s ^ 4 / 9) * h6
      rw [hv]
      nlinarith [pow_pos hs 4]
    · have hv : (Vec3.cross (Vec3.sub (v1 s) (v0 s)) (Vec3.sub (v3 s) (v0 s))).dot
          (Vec3.sub (face_centroid s 1) (spec_solid_centroid s))
          = Real.sqrt 3 * Real.sqrt 6 * s ^ 3 / 24 := by
        have fc : face_centroid s 1 = Vec3.div (Vec3.add (Vec3.add (v0 s) (v1 s)) (v3 s)) 3 := rfl
        rw [fc]
        simp only [v0, v1, v2, v3, Vec3.sub, Vec3.cross, Vec3.dot,
          spec_solid_centroid, Vec3.add, Vec3.div]
        ring
      rw [hv]
      nlinarith [mul_pos (mul_pos h3p h6p) (pow_pos hs 3)]
  · -- right face (v1, v2, v3)
    show (Vec3.neg (Vec3.normalized (Vec3.cross
          (Vec3.sub (v2 s) (v1 s)) (Vec3.sub (v3 s) (v1 s))))).dot
        (Vec3.sub (face_centroid s 2) (spec_solid_centroid s)) < 0
    apply dot_neg_normalized_neg
    · have hv : (Vec3.cross (Vec3.sub (v2 s) (v1 s)) (Vec3.sub (v3 s) (v1 s))).dot
          (Vec3.cross (Vec3.sub (v2 s) (v1 s)) (Vec3.sub (v3 s) (v1 s))) = 3 / 4 * s ^ 4 := by
        simp only [v1, v2, v3, Vec3.sub, Vec3.cross, Vec3.dot]
        linear_combination ((Real.sqrt 6 ^ 2 + 1) * s ^ 4 / 36) * h3 + (s ^ 4 / 9) * h6
      rw [hv]
      nlinarith [pow_pos hs 4]
    · have hv : (Vec3.cross (Vec3.sub (v2 s) (v1 s)) (Vec3.sub (v3 s) (v1 s))).dot
          (Vec3.sub (face_centroid s 2) (spec_solid_centroid s))
          = Real.sqrt 3 * Real.sqrt 6 * s ^ 3 / 24 := by
        have fc : face_centroid s 2 = Vec3.div (Vec3.add (Vec3.add (v1 s) (v2 s)) (v3 s)) 3 := rfl
        rw [fc]
        simp only [v0, v1, v2, v3, Vec3.sub, Vec3.cross, Vec3.dot,
          spec_solid_centroid, Vec3.add, Vec3.div]
        ring
      rw [hv]
      nlinarith [mul_pos (mul_pos h3p h6p) (pow_pos hs 3)]
  · -- left face (v2, v0, v3)
    show (Vec3.neg (Vec3.normalized (Vec3.cross
          (Vec3.sub (v0 s) (v2 s)) (Vec3.sub (v3 s) (v2 s))))).dot
        (Vec3.sub (face_centroid s 3) (spec_solid_centroid s)) < 0
    apply dot_neg_normalized_neg
    · have hv : (Vec3.cross (Vec3.sub (v0 s) (v2 s)) (Vec3.sub (v3 s) (v2 s))).dot
          (Vec3.cross (Vec3.sub (v0 s) (v2 s)) (Vec3.sub (v3 s) (v2 s))) = 3 / 4 * s ^ 4 := by
        simp only [v0, v2, v3, Vec3.sub, Vec3.cross, Vec3.dot]
        linear_combination ((Real.sqrt 6 ^ 2 + 1) * s ^ 4 / 36) * h3 + (s ^ 4 / 9) * h6
      rw [hv]
      nlinarith [pow_pos hs 4]
    · have hv : (Vec3.cross (Vec3.sub (v0 s) (v2 s)) (Vec3.sub (v3 s) (v2 s))).dot
          (Vec3.sub (face_centroid s 3) (spec_solid_centroid s))
          = Real.sqrt 3 * Real.sqrt 6 * s ^ 3 / 24 := by
        have fc : face_centroid s 3 = Vec3.div (Vec3.add (Vec3.add (v2 s) (v0 s)) (v3 s)) 3 := rfl
        rw [fc]
        simp only [v0, v1, v2, v3, Vec3.sub, Vec3.cross, Vec3.dot,
          spec_solid_centroid, Vec3.add, Vec3.div]
        ring
      rw [hv]
      nlinarith [mul_pos (mul_pos h3p h6p) (pow_pos hs 3)]

/-! ## Rotation-alignment algebra -/

lemma cross_self (a : Vec3) : a.cross a = ⟨0, 0, 0⟩ := by
  ext <;> simp [Vec3.cross] <;> ring

lemma zero_length : (Vec3.mk 0 0 0).length = 0 := by
  simp [Vec3.length, Vec3.dot]

lemma normalized_neg (v : Vec3) : (Vec3.neg v).normalized = Vec3.neg v.normalized := by
  have hl : (Vec3.neg v).length = v.length := by
    simp only [Vec3.length, Vec3.dot, Vec3.neg]
    ring_nf
  ext <;> (simp only [Vec3.normalized, hl]; simp [Vec3.neg, neg_div])

lemma align_self {v : Vec3} (hv : v ≠ ⟨0, 0, 0⟩) :
    get_rotation_matrix_to_align v v = 1 := by
  have hd : 0 < v.dot v := dot_self_pos hv
  have hlen : (Vec3.cross v.normalized v.normalized).length < 0.0001 := by
    rw [cross_self, zero_length]; norm_num
  have hdot : 0 < v.normalized.dot v.normalized := by
    rw [dot_normalized_self hd]; norm_num
  unfold get_rotation_matrix_to_align
  dsimp only
  rw [if_pos hlen, if_pos hdot]

lemma align_antiparallel {v : Vec3} (hv : v ≠ ⟨0, 0, 0⟩) :
    get_rotation_matrix_to_align v (Vec3.neg v) =
      rotationM Real.pi ((v.normalized.cross
        (if |v.normalized.x| < 0.9 then ⟨1, 0, 0⟩ else ⟨0, 1, 0⟩)).normalized) := by
  have hd : 0 < v.dot v := dot_self_pos hv
  have hnn : (Vec3.neg v).normalized = Vec3.neg v.normalized := normalized_neg v
  unfold get_rotation_matrix_to_align
  dsimp only
  rw [hnn]
  have hax : v.normalized.cross (Vec3.neg v.normalized) = ⟨0, 0, 0⟩ := by
    ext <;> simp [Vec3.cross, Vec3.neg] <;> ring
  rw [hax]
  have hlen : (Vec3.mk 0 0 0).length < 0.0001 := by
    rw [zero_length]; norm_num
  rw [if_pos hlen]
  have hdot : ¬(0 < v.normalized.dot (Vec3.neg v.normalized)) := by
    have he : v.normalized.dot (Vec3.neg v.normalized) =
        -(v.normalized.dot v.normalized) := by
      simp only [Vec3.dot, Vec3.neg]; ring
    rw [he, dot_normalized_self hd]; norm_num
  rw [if_neg hdot]

lemma perp_cross_pos {v : Vec3} (hv : v ≠ ⟨0, 0, 0⟩) :
    0 < (v.normalized.cross
        (if |v.normalized.x| < 0.9 then (⟨1, 0, 0⟩ : Vec3) else ⟨0, 1, 0⟩)).dot
      (v.normalized.cross
        (if |v.normalized.x| < 0.9 then (⟨1, 0, 0⟩ : Vec3) else ⟨0, 1, 0⟩)) := by
  have hd : 0 < v.dot v := dot_self_pos hv
  have hu : v.normalized.dot v.normalized = 1 := dot_normalized_self hd
  by_cases hx : |v.normalized.x| < 0.9
  · rw [if_pos hx]
    simp only [Vec3.cross, Vec3.dot] at hu ⊢
    have hx2 : v.normalized.x ^ 2 < 0.81 := by
      have h1 := abs_lt.mp hx
      nlinarith [h1.1, h1.2]
    nlinarith [hu, hx2]
  · rw [if_neg hx]
    simp only [Vec3.cross, Vec3.dot] at hu ⊢
    have hx2 : (0.81 : ℝ) ≤ v.normalized.x ^ 2 := by
      have h1 : (0.9 : ℝ) ≤ |v.normalized.x| := le_of_not_lt hx
      nlinarith [sq_abs v.normalized.x, h1, abs_nonneg v.normalized.x]
    nlinarith [hx2]

lemma rot_pi_sq {a : Vec3} (h : a.dot a = 1) :
    rotationM Real.pi a * rotationM Real.pi a = 1 := by
  have hn : a.normalized = a := normalized_of_unit h
  have hsum : a.x * a.x + a.y * a.y + a.z * a.z = 1 := by
    simpa [Vec3.dot] using h
  unfold rotationM
  dsimp only
  rw [hn, Real.cos_pi, Real.sin_pi]
  ext i j
  fin_cases i <;> fin_cases j <;> simp [Matrix.mul_apply, Fin.sum_univ_four, Matrix.one_apply] <;> (first | linear_combination (4 * a.x * a.x) * hsum | linear_combination (4 * a.x * a.y) * hsum | linear_combination (4 * a.x * a.z) * hsum | linear_combination (4 * a.y * a.y) * hsum | linear_combination (4 * a.y * a.z) * hsum | linear_combination (4 * a.z * a.z) * hsum)


/-! ## Further helper lemmas for the claims -/

lemma guard_fails_of_small {s : ℝ} (hs : s < nozzle_width) {d : ℕ} :
    ¬(nozzle_width ≤ s ∧ 0 < d) := fun hc => absurd hc.1 (not_le.mpr hs)

lemma root_record_mem : (⟨create_tetra 30, 1, 4⟩ : PlacementRec) ∈ all_meshes_result := by
  have h1 : nozzle_width ≤ size := by norm_num [nozzle_width, size]
  show _ ∈ emitted size recursion_depth 1 true
  rw [show (recursion_depth : ℕ) = 3 + 1 from rfl, emitted_succ h1]
  exact List.mem_append_left _ (List.mem_append_left _ (List.mem_append_left _
    (List.mem_cons_self _ _)))

/-! ## The claims -/

/-- C1 (counterexample): at edge length 1 the normal the loop computes for the
front side face (0,1,3) does NOT satisfy the claimed outwardness test: its dot
product with (face centroid - solid centroid) is not positive. -/
theorem c1_counterexample :
    ¬ (0 < (face_normal 1 1).dot
        (Vec3.sub (face_centroid 1 1) (spec_solid_centroid 1))) :=
  not_lt.mpr (le_of_lt (face_normal_inward 1 (by norm_num) 1))

/-- C1 (amended): for every edge length s > 0, the normal the recursor computes
for EVERY face (the sign-flipped normalised cross product for the three side
faces, and the fixed base direction (0,0,1)) points toward the solid interior:
its dot product with (face centroid - solid centroid) is negative.  The base
face normal is indeed the fixed direction (0,0,1). -/
theorem c1_normals_point_inward (s : ℝ) (hs : 0 < s) :
    (∀ i : Fin 4, (face_normal s i).dot
      (Vec3.sub (face_centroid s i) (spec_solid_centroid s)) < 0) ∧
    face_normal s 0 = ⟨0, 0, 1⟩ :=
  ⟨fun i => face_normal_inward s hs i, rfl⟩

/-- C1 (witness): the amended statement evaluated at s = 1, face (0,1,3). -/
theorem c1_witness :
    (face_normal 1 1).dot (Vec3.sub (face_centroid 1 1) (spec_solid_centroid 1)) < 0 :=
  (c1_normals_point_inward 1 (by norm_num)).1 1

/-- C2: for every parent size, parent transform and face, the composed child
transform (parent, then translation to the face centroid, then the alignment
rotation, then translation by the negated child base centroid) maps the child
analytic base centroid (childSize/2, (sqrt 3/6)*childSize, 0) to exactly the
point the parent transform assigns to the face centroid. -/
theorem c2_child_lands_on_face_centroid (s : ℝ) (P : Mat4) (i : Fin 4) :
    (child_matrix s P i).mulVec (hvec (base_centroid (s * scale_factor))) =
      P.mulVec (hvec (face_centroid s i)) := by
  rw [child_matrix, ← Matrix.mulVec_mulVec, ← Matrix.mulVec_mulVec,
    ← Matrix.mulVec_mulVec, translationM_neg_mulVec, align_mulVec_e4,
    translationM_mulVec_e4]

/-- C3: a call emits exactly one record for itself (the head of its suffix of
the accumulator, carrying the current primitive, transform and depth) when
size >= nozzle_width and depth > 0, and leaves the accumulator unchanged
otherwise; every emitted record has depth between 1 and the call depth. -/
theorem c3_emission (s : ℝ) (d : ℕ) (t : Mat4) (acc : List PlacementRec) (sb : Bool) :
    (nozzle_width ≤ s ∧ 0 < d →
      ∃ rest, fractal_tetra_simple s d t acc sb =
          acc ++ (⟨create_tetra s, t, d⟩ : PlacementRec) :: rest ∧
        ∀ r ∈ (⟨create_tetra s, t, d⟩ : PlacementRec) :: rest,
          1 ≤ r.depth ∧ r.depth ≤ d) ∧
    (¬(nozzle_width ≤ s ∧ 0 < d) → fractal_tetra_simple s d t acc sb = acc) := by
  constructor
  · rintro ⟨h1, h2⟩
    obtain ⟨e, rfl⟩ : ∃ e, d = e + 1 := ⟨d - 1, by omega⟩
    obtain ⟨rest, he2⟩ : ∃ rest, emitted s (e + 1) t sb =
        (⟨create_tetra s, t, e + 1⟩ : PlacementRec) :: rest := by
      refine ⟨(if sb then [] else emitted (s * scale_factor) e (child_matrix s t 0) true)
        ++ emitted (s * scale_factor) e (child_matrix s t 1) true
        ++ emitted (s * scale_factor) e (child_matrix s t 2) true
        ++ emitted (s * scale_factor) e (child_matrix s t 3) true, ?_⟩
      rw [emitted_succ h1]
      simp [List.append_assoc]
    refine ⟨rest, ?_, ?_⟩
    · rw [acc_shift, he2]
    · intro r hr
      rw [← he2] at hr
      have h3 := emitted_mem (e + 1) s t sb r hr
      exact ⟨h3.2.1, h3.2.2⟩
  · intro h
    exact fractal_not_guard t acc sb h

/-- C3 (witness): with size 0.3 < nozzle_width the call emits nothing. -/
theorem c3_witness : fractal_tetra_simple (3 / 10) 4 1 [] true = [] :=
  (c3_emission (3 / 10) 4 1 [] true).2
    (guard_fails_of_small (by norm_num [nozzle_width]))

/-- C4: create_tetra produces exactly the four analytic vertices and the four
fixed faces, and for s > 0 every pair of distinct vertices is at distance
exactly s (a regular tetrahedron). -/
theorem c4_create_tetra_regular (s : ℝ) (hs : 0 < s) :
    (create_tetra s).points =
      [⟨0, 0, 0⟩, ⟨s, 0, 0⟩, ⟨s / 2, Real.sqrt 3 / 2 * s, 0⟩,
        ⟨s / 2, Real.sqrt 3 / 6 * s, Real.sqrt 6 / 3 * s⟩] ∧
    (create_tetra s).faces = [[0, 1, 2], [0, 1, 3], [1, 2, 3], [2, 0, 3]] ∧
    ∀ p ∈ (create_tetra s).points, ∀ q ∈ (create_tetra s).points, p ≠ q →
      (Vec3.sub p q).length = s := by
  have h3 : Real.sqrt 3 ^ 2 = 3 := Real.sq_sqrt (by norm_num)
  have h6 : Real.sqrt 6 ^ 2 = 6 := Real.sq_sqrt (by norm_num)
  refine ⟨rfl, rfl, ?_⟩
  intro p hp q hq hne
  simp only [create_tetra, v0, v1, v2, v3, List.mem_cons, List.not_mem_nil,
    or_false] at hp hq
  rcases hp with hp | hp | hp | hp <;> rcases hq with hq | hq | hq | hq <;>
    subst hp <;> subst hq <;>
    first
      | exact absurd rfl hne
      | (apply len_eq (le_of_lt hs)
         simp only [Vec3.sub, Vec3.dot]
         first
           | linear_combination (0 : ℝ) * h3
           | linear_combination (s ^ 2 / 4) * h3
           | linear_combination (s ^ 2 / 36) * h3 + (s ^ 2 / 9) * h6
           | linear_combination (s ^ 2 / 9) * h3 + (s ^ 2 / 9) * h6)

/-- C4 (witness): the regularity statement evaluated at s = 1 for the
vertex pair (v1, v0). -/
theorem c4_witness : (Vec3.sub ⟨1, 0, 0⟩ ⟨0, 0, 0⟩).length = 1 :=
  (c4_create_tetra_regular 1 (by norm_num)).2.2 ⟨1, 0, 0⟩
    (by simp [create_tetra, v0, v1, v2, v3]) ⟨0, 0, 0⟩
    (by simp [create_tetra, v0, v1, v2, v3]) (by simp)

/-- C5 (counterexample): there is no fail-fast behaviour: create_tetra at the
invalid edge length -1 silently builds a complete 4-vertex, 4-face primitive,
and the generator called with the invalid size -5 silently returns the
untouched accumulator instead of failing. -/
theorem c5_counterexample :
    (create_tetra (-1)).points.length = 4 ∧ (create_tetra (-1)).faces.length = 4 ∧
    fractal_tetra_simple (-5) 4 1 [] true = [] :=
  ⟨rfl, rfl, fractal_not_guard 1 [] true
    (guard_fails_of_small (by norm_num [nozzle_width]))⟩

/-- C5 (amended): the script performs no input validation: for any
non-positive edge length, create_tetra still produces its full vertex list,
and the recursor silently returns the accumulator unchanged (the size
guard fails), with no failure path. -/
theorem c5_no_validation (s : ℝ) (hs : s ≤ 0) :
    (create_tetra s).points = [v0 s, v1 s, v2 s, v3 s] ∧
    ∀ (d : ℕ) (t : Mat4) (acc : List PlacementRec) (sb : Bool),
      fractal_tetra_simple s d t acc sb = acc := by
  refine ⟨rfl, fun d t acc sb => ?_⟩
  apply fractal_not_guard
  apply guard_fails_of_small
  have : (0 : ℝ) < nozzle_width := by norm_num [nozzle_width]
  linarith

/-- C5 (witness): the amended statement evaluated at s = -1. -/
theorem c5_witness : fractal_tetra_simple (-1) 4 1 [] true = [] :=
  (c5_no_validation (-1) (by norm_num)).2 4 1 [] true

/-- C6: the top-level call with the literal parameters (30, 4, 0.5, 0.4)
emits exactly 40 placement records, matching the bound 1 + 3 + 9 + 27 = 40. -/
theorem c6_record_count : all_meshes_result.length = 40 := by
  have H : ∀ k, k < recursion_depth → nozzle_width ≤ size * scale_factor ^ k := by
    intro k hk
    have hk4 : k < 4 := hk
    interval_cases k <;> norm_num [nozzle_width, size, scale_factor]
  have h := len_exact recursion_depth size 1 H
  calc all_meshes_result.length
      = (emitted size recursion_depth 1 true).length := rfl
    _ = cnt3 recursion_depth := h
    _ = 40 := by norm_num [cnt3, recursion_depth]

/-- C7: aligning a nonzero direction to itself yields the identity transform,
and aligning it to its exact negation yields a 180-degree axis-angle rotation
(about a unit axis) whose square is the identity. -/
theorem c7_align_idempotence (v : Vec3) (hv : v ≠ ⟨0, 0, 0⟩) :
    get_rotation_matrix_to_align v v = 1 ∧
    ∃ a : Vec3, a.dot a = 1 ∧
      get_rotation_matrix_to_align v (Vec3.neg v) = rotationM Real.pi a ∧
      get_rotation_matrix_to_align v (Vec3.neg v) *
        get_rotation_matrix_to_align v (Vec3.neg v) = 1 := by
  refine ⟨align_self hv,
    (v.normalized.cross
      (if |v.normalized.x| < 0.9 then ⟨1, 0, 0⟩ else ⟨0, 1, 0⟩)).normalized,
    dot_normalized_self (perp_cross_pos hv), align_antiparallel hv, ?_⟩
  rw [align_antiparallel hv]
  exact rot_pi_sq (dot_normalized_self (perp_cross_pos hv))

/-- C7 (witness): the alignment statement evaluated at v = (0,0,1). -/
theorem c7_witness :
    get_rotation_matrix_to_align ⟨0, 0, 1⟩ ⟨0, 0, 1⟩ = 1 ∧
    ∃ a : Vec3, a.dot a = 1 ∧
      get_rotation_matrix_to_align ⟨0, 0, 1⟩ (Vec3.neg ⟨0, 0, 1⟩) = rotationM Real.pi a ∧
      get_rotation_matrix_to_align ⟨0, 0, 1⟩ (Vec3.neg ⟨0, 0, 1⟩) *
        get_rotation_matrix_to_align ⟨0, 0, 1⟩ (Vec3.neg ⟨0, 0, 1⟩) = 1 :=
  c7_align_idempotence ⟨0, 0, 1⟩ (by simp)

/-- C8: under skip_base = true (which the root call passes, and which every
recursive call passes literally), a non-terminated call still appends its own
record but spawns children only on the three side faces 1, 2, 3 - never on
its base face 0. -/
theorem c8_skip_base (s : ℝ) (d : ℕ) (t : Mat4) (acc : List PlacementRec)
    (h : nozzle_width ≤ s) :
    fractal_tetra_simple s (d + 1) t acc true =
      fractal_tetra_simple (s * scale_factor) d (child_matrix s t 3)
        (fractal_tetra_simple (s * scale_factor) d (child_matrix s t 2)
          (fractal_tetra_simple (s * scale_factor) d (child_matrix s t 1)
            (acc ++ [⟨create_tetra s, t, d + 1⟩]) true) true) true := by
  rw [fractal_succ, if_pos h]
  rfl

/-- C8 (witness): the skip-base unfolding evaluated at s = 30, depth 1. -/
theorem c8_witness :
    fractal_tetra_simple 30 1 1 [] true =
      fractal_tetra_simple (30 * scale_factor) 0 (child_matrix 30 1 3)
        (fractal_tetra_simple (30 * scale_factor) 0 (child_matrix 30 1 2)
          (fractal_tetra_simple (30 * scale_factor) 0 (child_matrix 30 1 1)
            ([] ++ [⟨create_tetra 30, 1, 1⟩]) true) true) true :=
  c8_skip_base 30 0 1 [] (by norm_num [nozzle_width])

/-- C9: every call terminates with a result extending its accumulator by a
finite block of records, bounded by the depth-indexed recurrence cnt4 (the
recursion being structural: every recursive call decreases depth by exactly
one and multiplies size by scale_factor). -/
theorem c9_terminates (s : ℝ) (d : ℕ) (t : Mat4) (acc : List PlacementRec) (sb : Bool) :
    ∃ out, fractal_tetra_simple s d t acc sb = acc ++ out ∧ out.length ≤ cnt4 d :=
  ⟨emitted s d t sb, acc_shift d s t acc sb, len_le d s t sb⟩

/-- C10: in the program's top-level call, every emitted record at depth value
dep carries exactly the primitive of edge length size * scale_factor ^
(recursion_depth - dep); hence geometry is fully determined by depth. -/
theorem c10_size_determined_by_depth :
    ∀ r ∈ all_meshes_result,
      r.mesh = create_tetra (size * scale_factor ^ (recursion_depth - r.depth)) ∧
      1 ≤ r.depth ∧ r.depth ≤ recursion_depth := by
  intro r hr
  exact emitted_mem recursion_depth size 1 true r hr

/-- C10 (witness): the size law evaluated at the root record. -/
theorem c10_witness :
    (⟨create_tetra 30, 1, 4⟩ : PlacementRec).mesh =
      create_tetra (size * scale_factor ^
        (recursion_depth - (⟨create_tetra 30, 1, 4⟩ : PlacementRec).depth)) ∧
    1 ≤ (⟨create_tetra 30, 1, 4⟩ : PlacementRec).depth ∧
    (⟨create_tetra 30, 1, 4⟩ : PlacementRec).depth ≤ recursion_depth :=
  c10_size_determined_by_depth _ root_record_mem

end

end FractalPyramid

